import Mathlib

/-!
Verification development for the metadata-derivation core of fmu-dataio.

The Python providers in `src/fmu/dataio/providers/` are shallowly embedded:
pure derivation methods become Lean functions, the mutable instance state that
a method assigns (`time0`, `time1`, `efolder`, ...) becomes explicit record
output, Python `raise` becomes `Except.error`, and the non-fatal
`warnings.warn` calls become explicit boolean/list outputs.  Dates given as
`YYYYMMDD` integers are modelled as `Nat` (the ISO strings Python builds from
them compare the same way the integers do).
-/

namespace FmuDataio

/-- Embedding of `TimedataValueLabel` from `providers/_objectdata_base.py`.
The Python `value` is the ISO-8601 datetime string produced by
`datetime.strptime(str(arr[0]), "%Y%m%d").isoformat()`; since the input is a
`YYYYMMDD` date, the ISO strings order exactly as the `YYYYMMDD` numbers do,
so `value` is modelled as that number. -/
structure TimedataValueLabel where
  value : Nat
  label : String
deriving Repr, DecidableEq

/-- Embedding of `TimedataValueLabel.from_list`: the list holds a date and an
optional label (`label = arr[1] if len(arr) == 2 else ""`). -/
def TimedataValueLabel.fromList (arr : Nat × Option String) : TimedataValueLabel :=
  { value := arr.1, label := arr.2.getD "" }

/-- The union `TimedataLegacyFormat | TimedataFormat` that
`ObjectDataProvider._derive_timedata` returns. -/
inductive TimedataResult where
  | legacyFormat (time : List TimedataValueLabel)
  | newFormat (t0 t1 : Option TimedataValueLabel)
deriving Repr, DecidableEq

/-- Result of `ObjectDataProvider._derive_timedata` together with the
`time0` / `time1` instance state it assigns.  The Python fields default to the
empty string and are only assigned in the one- and two-interval branches; the
unset state is modelled as `none`. -/
structure TimedataDerivation where
  result : Option TimedataResult
  time0 : Option Nat
  time1 : Option Nat
deriving Repr, DecidableEq

/-- Embedding of `ObjectDataProvider._derive_timedata`
(`providers/_objectdata_base.py`).  `tdata` is `self.dataio.timedata`,
`useLegacyFormat` is `self.dataio.legacy_time_format`.  With two entries the
pair is swapped when the first date is strictly later than the second; with
more than two entries an empty legacy list (resp. a `t0=None, t1=None` record)
is returned and `time0` / `time1` stay unset; no warning is issued anywhere in
this method. -/
def deriveTimedata (tdata : List (Nat × Option String)) (useLegacyFormat : Bool) :
    TimedataDerivation :=
  match tdata with
  | [] => ⟨none, none, none⟩
  | [e] =>
      let start := TimedataValueLabel.fromList e
      ⟨some (if useLegacyFormat then .legacyFormat [start]
             else .newFormat (some start) none),
        some start.value, none⟩
  | [e0, e1] =>
      let start := TimedataValueLabel.fromList e0
      let stop := TimedataValueLabel.fromList e1
      let p := if start.value > stop.value then (stop, start) else (start, stop)
      ⟨some (if useLegacyFormat then .legacyFormat [p.1, p.2]
             else .newFormat (some p.1) (some p.2)),
        some p.1.value, some p.2.value⟩
  | _ => ⟨some (if useLegacyFormat then .legacyFormat []
                else .newFormat none none),
          none, none⟩

/-- Shape of the optional `time` entry in the assembled `data` block. -/
inductive MetaTimeBlock where
  | legacyList (ts : List TimedataValueLabel)
  | timeRecord (t0 t1 : Option TimedataValueLabel)
deriving Repr, DecidableEq

/-- Embedding of the timedata part of `ObjectDataProvider.derive_metadata`:
a legacy result contributes a `time` list only when non-empty, a new-format
result contributes a `time` record only when `t0` or `t1` is present. -/
def metaTimeEntry : Option TimedataResult → Option MetaTimeBlock
  | some (.legacyFormat ts) => if ts.isEmpty then none else some (.legacyList ts)
  | some (.newFormat t0 t1) =>
      if t0.isSome || t1.isSome then some (.timeRecord t0 t1) else none
  | none => none

/-- One pass of Python `stem.replace("__", "_")`: non-overlapping matches,
scanned left to right. -/
def replaceDunder : List Char → List Char
  | c1 :: c2 :: rest =>
      if c1 = '_' ∧ c2 = '_' then '_' :: replaceDunder rest
      else c1 :: replaceDunder (c2 :: rest)
  | s => s

/-- Python `"__" in stem`. -/
def hasDunder : List Char → Bool
  | c1 :: c2 :: rest => (c1 = '_' && c2 = '_') || hasDunder (c2 :: rest)
  | _ => false

/-- The `while "__" in stem` loop of `_get_filestem`, with explicit fuel;
`stem.length` fuel suffices because each replacement strictly shortens the
string. -/
def collapseDunder : Nat → List Char → List Char
  | 0, s => s
  | n + 1, s => if hasDunder s then collapseDunder n (replaceDunder s) else s

/-- Python single-character `str.replace` whose replacement has two characters,
as used for the transliterations æ→ae, ø→oe, å→aa. -/
def replaceCh (p a b : Char) : List Char → List Char
  | [] => []
  | c :: rest =>
      if c = p then a :: b :: replaceCh p a b rest else c :: replaceCh p a b rest

/-- Python `str.lower` on the characters this pipeline meets: ASCII letters
plus the Norwegian letters Æ, Ø, Å that `_get_filestem` transliterates. -/
def pyLower (c : Char) : Char :=
  if c = 'Æ' then 'æ' else if c = 'Ø' then 'ø' else if c = 'Å' then 'å' else c.toLower

/-- Lower-case a Python string, as a character list. -/
def lowerStr (s : String) : List Char := s.toList.map pyLower

/-- Python `(str(time0)[0:10]).replace("-", "")`: the ISO datetime built from a
`YYYYMMDD` date prints back as the eight-digit `YYYYMMDD` string. -/
def dateDigits (n : Nat) : List Char :=
  let s := (toString n).toList
  List.replicate (8 - s.length) '0' ++ s

/-- Inputs that `FileDataProvider._get_filestem` reads: `name` is the resolved
`self.name` (`dataio.name or objdata.name`), `time0` / `time1` the state set by
`_derive_timedata`, `timedataReverse` the class variable
`filename_timedata_reverse`. -/
structure FilestemInput where
  name : String
  tagname : String
  parent : String
  time0 : Option Nat
  time1 : Option Nat
  timedataReverse : Bool
deriving Repr, DecidableEq

/-- The cleanup tail of `_get_filestem`: replace periods and spaces with
underscores, run the `while "__" in stem` loop, then transliterate æ→ae,
ø→oe, å→aa (in the source's order). -/
def cleanupStem (stem : List Char) : List Char :=
  let s1 := stem.map (fun c => if c = '.' then '_' else c)
  let s2 := s1.map (fun c => if c = ' ' then '_' else c)
  let s3 := collapseDunder s2.length s2
  let s4 := replaceCh 'æ' 'a' 'e' s3
  let s5 := replaceCh 'ø' 'o' 'e' s4
  replaceCh 'å' 'a' 'a' s5

/-- Embedding of `FileDataProvider._get_filestem` (`providers/_filedata.py`).
Returns the stem and whether the equal-dates `UserWarning` fired; `raise
ValueError` becomes `Except.error` with the source message. -/
def getFilestem (inp : FilestemInput) : Except String (String × Bool) :=
  if inp.name = "" then
    .error "The 'name' entry is missing for constructing a file name"
  else if inp.time0 = none && inp.time1.isSome then
    .error "Not legal: 'time0' is missing while 'time1' is present"
  else
    let stem0 := lowerStr inp.name
    let stem1 :=
      if inp.tagname = "" then stem0 else stem0 ++ '-' :: '-' :: lowerStr inp.tagname
    let stem2 :=
      if inp.parent = "" then stem1 else lowerStr inp.parent ++ '-' :: '-' :: stem1
    let step :=
      match inp.time0, inp.time1 with
      | some t0, none => (stem2 ++ '-' :: '-' :: dateDigits t0, false)
      | some t0, some t1 =>
          let monitor := dateDigits t1
          let base := dateDigits t0
          ((if inp.timedataReverse then stem2 ++ '-' :: '-' :: base ++ '_' :: monitor
            else stem2 ++ '-' :: '-' :: monitor ++ '_' :: base),
           decide (monitor = base))
      | _, _ => (stem2, false)
    .ok (String.mk (cleanupStem step.1), step.2)

/-- A filesystem path, modelled as its segments plus whether it is anchored at
the filesystem root (Python paths whose string form starts with `/`). -/
structure PPath where
  absolute : Bool
  segs : List String
deriving Repr, DecidableEq

/-- Python `path / segment`. -/
def PPath.child (p : PPath) (s : String) : PPath :=
  ⟨p.absolute, p.segs ++ [s]⟩

/-- Python `text.startswith("/")`. -/
def startsWithSlash (s : String) : Bool :=
  match s.toList with
  | '/' :: _ => true
  | _ => false

/-- Split a character list on `/` into its non-empty segments, accumulating
the current segment in reverse. -/
def splitSlashAux : List Char → List Char → List String
  | [], acc => if acc = [] then [] else [String.mk acc.reverse]
  | '/' :: rest, acc =>
      if acc = [] then splitSlashAux rest []
      else String.mk acc.reverse :: splitSlashAux rest []
  | c :: rest, acc => splitSlashAux rest (c :: acc)

/-- Python `Path(text).absolute()` for a text that starts with `/`:
split on `/`, dropping empty segments. -/
def pathOfAbsoluteString (s : String) : PPath :=
  ⟨true, splitSlashAux s.toList []⟩

/-- Whether `root` is an ancestor of (or equal to) `p`, i.e. Python
`p.relative_to(root)` succeeds: same anchor and `root.segs` leads `p.segs`. -/
def PPath.underRoot (root p : PPath) : Bool :=
  p.absolute = root.absolute && root.segs.isPrefixOf p.segs

/-- The execution-context mode `FmuContext`; `caseAggregated` stands for any
mode other than `REALIZATION` and `PREPROCESSED` (the code inspects the mode
only through those two comparisons). -/
inductive FmuContext where
  | realization
  | preprocessed
  | caseAggregated
deriving Repr, DecidableEq

/-- The `ExportData` settings that `FileDataProvider._get_path` and
`_derive_filedata_generic` read.  Unset string settings are Python falsy empty
strings. -/
structure PathSettings where
  fmuContext : FmuContext
  forcefolder : String
  allowForcefolderAbsolute : Bool
  isObservation : Bool
  subfolder : String
deriving Repr, DecidableEq

/-- Outcome of `_get_path`: the destination folder, the
`forcefolder_is_absolute` flag the method stores, and the texts of the
non-fatal warnings it issued. -/
structure GetPathResult where
  dest : PPath
  forcefolderIsAbsolute : Bool
  warnings : List String
deriving Repr, DecidableEq

/-- Embedding of `FileDataProvider._get_path` (`providers/_filedata.py`).
`rootpath`, `itername`, `realname` are the provider fields, `efolder` is
`self.objdata.efolder`.  The two `raise ValueError` sites become
`Except.error` with the source messages; their preconditions are hoisted to
the top unchanged (each raise fires under exactly the same condition and in
the same order as in the source). -/
def getPath (s : PathSettings) (rootpath : PPath) (itername realname : String)
    (efolder : String) : Except String GetPathResult :=
  let outroot := rootpath
  let outroot :=
    if s.fmuContext = .realization then
      let outroot := if realname = "" then outroot else outroot.child realname
      if itername = "" then outroot else outroot.child itername
    else outroot
  let outroot := outroot.child "share"
  let forcefolderAbsolute := s.forcefolder ≠ "" && startsWithSlash s.forcefolder
  if s.fmuContext = .preprocessed ∧ forcefolderAbsolute = true then
    .error "Cannot use absolute path to 'forcefolder' with preprocessed data"
  else
    let outroot :=
      if s.fmuContext = .preprocessed then outroot.child "preprocessed"
      else outroot.child (if s.isObservation then "observations" else "results")
    let dest := outroot.child efolder
    if forcefolderAbsolute = true ∧ s.allowForcefolderAbsolute = false then
      .error "The forcefolder includes an absolute path"
    else
      let triple :=
        if forcefolderAbsolute then
          (pathOfAbsoluteString s.forcefolder, true,
            ["Using absolute paths in forcefolder is not recommended!"])
        else (dest, false, ([] : List String))
      .ok ⟨if s.subfolder = "" then triple.1 else triple.1.child s.subfolder,
        triple.2.1, triple.2.2⟩

/-- Python `path.relative_to(root)` as a partial function: the remaining
segments when `root` is an ancestor. -/
def relativeTo (root p : PPath) : Option PPath :=
  if root.underRoot p then some ⟨false, p.segs.drop root.segs.length⟩ else none

/-- Embedding of `FileDataProvider._derive_filedata_generic`
(`providers/_filedata.py`): join the destination folder with the lower-cased
stem plus extension, then compute the relative path.  When
`forcefolder_is_absolute` is set, a failing `relative_to` falls back to the
absolute path instead of raising.  The embedding assumes paths without `..`
segments, so `resolve()` is the identity; the non-ASCII check of the source is
kept. -/
def deriveFiledataGeneric (rootpath dest : PPath) (forcefolderIsAbsolute : Bool)
    (fname : String) : Except String (PPath × PPath) :=
  let path := dest.child fname
  let abspath := path
  if ¬ path.segs.all (fun seg => seg.toList.all (fun c => c.toNat < 128)) = true then
    .error "Path has non-ascii elements which is not supported"
  else if forcefolderIsAbsolute then
    match relativeTo rootpath path with
    | some r => .ok (r, abspath)
    | none => .ok (abspath, abspath)
  else
    match relativeTo rootpath path with
    | some r => .ok (r, abspath)
    | none => .error "path is not relative to rootpath"

/-- One row of the dataframe of an `xtgeo.Points` object. -/
structure PointRow where
  xval : Int
  yval : Int
  zval : Int
deriving Repr, DecidableEq

/-- Pandas column minimum of a non-empty column. -/
def colMin (v : Int) (vs : List Int) : Int := vs.foldl min v

/-- Pandas column maximum of a non-empty column. -/
def colMax (v : Int) (vs : List Int) : Int := vs.foldl max v

/-- The `BoundingBox3D` record of the metadata datastructure. -/
structure BoundingBox3D where
  xmin : Int
  xmax : Int
  ymin : Int
  ymax : Int
  zmin : Int
  zmax : Int
deriving Repr, DecidableEq

/-- Embedding of `PointsDataProvider.get_bbox` (`providers/objectdata/_xtgeo.py`)
on a non-empty dataframe (head row `p`, remaining rows `ps`).  The source
assigns `ymax` from the y column's `min()` and `ymin` from its `max()`, while
x and z use min for min and max for max. -/
def pointsGetBbox (p : PointRow) (ps : List PointRow) : BoundingBox3D where
  xmin := colMin p.xval (ps.map PointRow.xval)
  xmax := colMax p.xval (ps.map PointRow.xval)
  ymax := colMin p.yval (ps.map PointRow.yval)
  ymin := colMax p.yval (ps.map PointRow.yval)
  zmin := colMin p.zval (ps.map PointRow.zval)
  zmax := colMax p.zval (ps.map PointRow.zval)

/-- An `xtgeo.RegularSurface` as `RegularSurfaceDataProvider.get_bbox` reads
it: the x/y extent attributes and the masked value array, where `none` stands
for a cell with no finite value (masked / undefined) and `some` for a finite
value.  `values.min()` / `values.max()` on the masked array range over the
finite entries only. -/
structure SurfaceObj where
  xmin : Int
  xmax : Int
  ymin : Int
  ymax : Int
  values : List (Option Int)
deriving Repr, DecidableEq

/-- The bbox returned for a surface: `BoundingBox2D` (x/y keys only) or
`BoundingBox3D` (x/y/z keys). -/
inductive SurfaceBbox where
  | box2d (xmin xmax ymin ymax : Int)
  | box3d (xmin xmax ymin ymax zmin zmax : Int)
deriving Repr, DecidableEq

/-- Embedding of `RegularSurfaceDataProvider.get_bbox`
(`providers/objectdata/_xtgeo.py`): when `np.isfinite(values).any()` the bbox
is 3D with the z range over the finite values, else it is 2D. -/
def surfaceGetBbox (s : SurfaceObj) : SurfaceBbox :=
  match s.values.filterMap id with
  | [] => .box2d s.xmin s.xmax s.ymin s.ymax
  | v :: vs => .box3d s.xmin s.xmax s.ymin s.ymax (colMin v vs) (colMax v vs)

/-- One entry of the site configuration's `stratigraphy` table.  Every field is
optional because the source reads each with `dict.get` and a per-field
default. -/
structure StratEntry where
  name : Option String
  aliasList : Option (List String)
  stratigraphic : Option Bool
  stratigraphicAlias : Option (List String)
  offset : Option Int
  top : Option String
  base : Option String
deriving Repr, DecidableEq

/-- Embedding of the dataclass `DerivedNamedStratigraphy`.  The Python
`stratigraphic_alias` field receives `.get("stratigraphic_alias")`, which may
be `None`, so it stays optional; in the not-found branch the source puts a
literal empty list there. -/
structure DerivedNamedStratigraphy where
  name : String
  aliasList : List String
  stratigraphic : Bool
  stratigraphicAlias : Option (List String)
  offset : Option Int
  base : Option String
  top : Option String
deriving Repr, DecidableEq

/-- The `config.get("stratigraphy", {})` value: `none` models a config whose
`stratigraphy` key holds `None`, and the table itself is an exact-string-keyed
mapping. -/
def lookupStrat (strat : Option (List (String × StratEntry))) (candidate : String) :
    Option StratEntry :=
  match strat with
  | none => none
  | some table => table.lookup candidate

/-- Embedding of `ObjectDataProvider._derive_name_stratigraphy`
(`providers/_objectdata_base.py`) as a function of the already-resolved
candidate name (`derive_name(self.dataio, self.obj)`).  When the candidate is
found, the fields come from the table entry with the source's `get` defaults
and the candidate is appended to the alias list unless the official name
equals the literal string "name"; when missing, the defaults of the source's
`no_start_or_missing_name` branch apply. -/
def deriveNameStratigraphy (strat : Option (List (String × StratEntry)))
    (candidate : String) : DerivedNamedStratigraphy :=
  match lookupStrat strat candidate with
  | none =>
      { name := candidate, aliasList := [], stratigraphic := false,
        stratigraphicAlias := some [], offset := none, top := none, base := none }
  | some e =>
      let rv : DerivedNamedStratigraphy :=
        { name := e.name.getD candidate, aliasList := e.aliasList.getD [],
          stratigraphic := e.stratigraphic.getD false,
          stratigraphicAlias := e.stratigraphicAlias,
          offset := e.offset, top := e.top, base := e.base }
      if rv.name ≠ "name" then { rv with aliasList := rv.aliasList ++ [candidate] } else rv

/-- Embedding of `derive_name` (`providers/_objectdata_base.py`): the explicit
export name when non-empty, else the object's `name` attribute when it is a
string (`objName = some s`), else the empty string. -/
def deriveName (exportName : String) (objName : Option String) : String :=
  if exportName ≠ "" then exportName
  else match objName with
    | some s => s
    | none => ""

/-- The `data` block of an existing metadata record.  The fields the reuse
claims speak about are explicit; every other key of the mapping is carried in
`rest` so that "copied verbatim" is meaningful. -/
structure DataBlock where
  name : String
  stratigraphic : Bool
  aliasList : List String
  top : Option String
  base : Option String
  format : String
  rest : List (String × String)
deriving Repr, DecidableEq

/-- An existing metadata record as `_derive_from_existing` reads it: the `data`
block, the `class` key, and `file.relative_path` as path segments (the last
segment is the file name). -/
structure ExistingMeta where
  data : DataBlock
  className : String
  relativePath : List String
deriving Repr, DecidableEq

/-- Python `Path(...).parent.name`: the next-to-last segment. -/
def parentName (segs : List String) : String :=
  match segs.reverse with
  | _ :: p :: _ => p
  | _ => ""

/-- Python `Path(...).parent.parent.name`: the third segment from the end. -/
def parentParentName (segs : List String) : String :=
  match segs.reverse with
  | _ :: _ :: pp :: _ => pp
  | _ => ""

/-- Python `Path(fname).suffix`: from the last dot on, empty when the name has
no dot after its first character. -/
def fileSuffix (fname : String) : String :=
  let rev := fname.toList.reverse
  let ext := rev.takeWhile (fun c => c ≠ '.')
  match rev.drop ext.length with
  | '.' :: before =>
      if before = [] then "" else String.mk ('.' :: ext.reverse)
  | _ => ""

/-- The instance state that `ObjectDataProvider._derive_from_existing`
assigns. -/
structure ExistingDerivation where
  metadata : DataBlock
  name : String
  efolder : String
  classname : String
  extension : String
  fmt : String
  time0 : Option Nat
  time1 : Option Nat
deriving Repr, DecidableEq

/-- Embedding of `ObjectDataProvider._derive_from_existing`
(`providers/_objectdata_base.py`), the path `derive_metadata` takes when an
existing record is supplied.  `parseTimedata` stands for the helper
`fmu.dataio._utils.parse_timedata`, whose module is outside the embedded
sources; it is passed in as a function of the `data` block. -/
def deriveFromExisting (parseTimedata : DataBlock → Option Nat × Option Nat)
    (me : ExistingMeta) (subfolder : Bool) : ExistingDerivation :=
  let t := parseTimedata me.data
  { metadata := me.data
    name := me.data.name
    efolder := if subfolder then parentParentName me.relativePath
               else parentName me.relativePath
    classname := me.className
    extension := fileSuffix (me.relativePath.getLast? |>.getD "")
    fmt := me.data.format
    time0 := t.1
    time1 := t.2 }

/-! Helper lemmas about the stem cleanup pipeline. -/

/-- Prepending a non-underscore character does not affect `hasDunder`. -/
theorem hasDunder_cons {c : Char} (hc : ¬ c = '_') (t : List Char) :
    hasDunder (c :: t) = hasDunder t := by
  cases t with
  | nil => simp [hasDunder]
  | cons d t => simp [hasDunder, hc]

/-- A double underscore in the tail is a double underscore in the whole. -/
theorem hasDunder_tail {c : Char} {t : List Char} (h : hasDunder (c :: t) = false) :
    hasDunder t = false := by
  cases t with
  | nil => simp [hasDunder]
  | cons d t =>
      rw [hasDunder, Bool.or_eq_false_iff] at h
      exact h.2

/-- One replacement pass never lengthens the string. -/
theorem replaceDunder_length_le : ∀ s : List Char,
    (replaceDunder s).length ≤ s.length
  | [] => by simp [replaceDunder]
  | [c] => by simp [replaceDunder]
  | c1 :: c2 :: rest => by
      rw [replaceDunder]
      by_cases h : c1 = '_' ∧ c2 = '_'
      · rw [if_pos h]
        have := replaceDunder_length_le rest
        simp only [List.length_cons]
        omega
      · rw [if_neg h]
        have := replaceDunder_length_le (c2 :: rest)
        simp only [List.length_cons] at this ⊢
        omega

/-- When a double underscore is present, one replacement pass strictly
shortens the string. -/
theorem replaceDunder_length_lt : ∀ s : List Char, hasDunder s = true →
    (replaceDunder s).length < s.length
  | [], h => by simp [hasDunder] at h
  | [c], h => by simp [hasDunder] at h
  | c1 :: c2 :: rest, h => by
      rw [replaceDunder]
      by_cases h12 : c1 = '_' ∧ c2 = '_'
      · rw [if_pos h12]
        have := replaceDunder_length_le rest
        simp only [List.length_cons]
        omega
      · rw [if_neg h12]
        have hd : hasDunder (c2 :: rest) = true := by
          rw [hasDunder, Bool.or_eq_true] at h
          rcases h with h | h
          · exact absurd (by simpa using h) h12
          · exact h
        have := replaceDunder_length_lt (c2 :: rest) hd
        simp only [List.length_cons] at this ⊢
        omega

/-- With fuel at least the string's length, the collapse loop reaches a string
with no double underscore. -/
theorem collapseDunder_no_dunder : ∀ (n : Nat) (s : List Char), s.length ≤ n →
    hasDunder (collapseDunder n s) = false
  | 0, s, h => by
      have hs : s = [] := List.eq_nil_of_length_eq_zero (Nat.le_zero.mp h)
      subst hs
      simp [collapseDunder, hasDunder]
  | n + 1, s, h => by
      rw [collapseDunder]
      by_cases hd : hasDunder s = true
      · rw [if_pos hd]
        have hlt := replaceDunder_length_lt s hd
        exact collapseDunder_no_dunder n (replaceDunder s) (by omega)
      · rw [if_neg hd]
        simpa using hd

/-- Every character of a transliterated string is a replacement character or a
surviving non-pattern character of the input. -/
theorem mem_replaceCh {c : Char} (p a b : Char) : ∀ {s : List Char},
    c ∈ replaceCh p a b s → c = a ∨ c = b ∨ (c ∈ s ∧ ¬ c = p)
  | [], h => by simp [replaceCh] at h
  | d :: rest, h => by
      rw [replaceCh] at h
      by_cases hd : d = p
      · rw [if_pos hd] at h
        rcases List.mem_cons.mp h with h | h
        · exact Or.inl h
        rcases List.mem_cons.mp h with h | h
        · exact Or.inr (Or.inl h)
        rcases mem_replaceCh p a b h with h | h | ⟨hm, hp⟩
        · exact Or.inl h
        · exact Or.inr (Or.inl h)
        · exact Or.inr (Or.inr ⟨List.mem_cons_of_mem d hm, hp⟩)
      · rw [if_neg hd] at h
        rcases List.mem_cons.mp h with h | h
        · subst h
          exact Or.inr (Or.inr ⟨List.mem_cons_self _ rest, hd⟩)
        rcases mem_replaceCh p a b h with h | h | ⟨hm, hp⟩
        · exact Or.inl h
        · exact Or.inr (Or.inl h)
        · exact Or.inr (Or.inr ⟨List.mem_cons_of_mem d hm, hp⟩)

/-- The first character of a transliterated string. -/
theorem replaceCh_head (p a b d : Char) (rest : List Char) :
    replaceCh p a b (d :: rest) =
      (if d = p then a else d) ::
        (if d = p then b :: replaceCh p a b rest else replaceCh p a b rest) := by
  rw [replaceCh]
  by_cases hd : d = p
  · rw [if_pos hd, if_pos hd, if_pos hd]
  · rw [if_neg hd, if_neg hd, if_neg hd]

/-- Transliteration with non-underscore replacement characters cannot create a
double underscore. -/
theorem hasDunder_replaceCh (p a b : Char) (ha : ¬ a = '_') (hb : ¬ b = '_') :
    ∀ s : List Char, hasDunder s = false →
      hasDunder (replaceCh p a b s) = false
  | [], _ => by simp [replaceCh, hasDunder]
  | d :: rest, h => by
      have hrest : hasDunder rest = false := hasDunder_tail h
      rw [replaceCh]
      by_cases hd : d = p
      · rw [if_pos hd, hasDunder_cons ha, hasDunder_cons hb]
        exact hasDunder_replaceCh p a b ha hb rest hrest
      · rw [if_neg hd]
        by_cases hu : d = '_'
        · subst hu
          cases rest with
          | nil => simp [replaceCh, hasDunder]
          | cons e t =>
              have he : ¬ e = '_' := by
                intro he
                subst he
                simp [hasDunder] at h
              rw [replaceCh_head]
              have hhead : ¬ (if e = p then a else e) = '_' := by
                by_cases hep : e = p
                · simpa [hep] using ha
                · simpa [hep] using he
              rw [hasDunder, Bool.or_eq_false_iff]
              refine ⟨by simp [hhead], ?_⟩
              have hrec := hasDunder_replaceCh p a b ha hb (e :: t) (hasDunder_tail h)
              rwa [replaceCh_head] at hrec
        · rw [hasDunder_cons hu]
          exact hasDunder_replaceCh p a b ha hb rest hrest

/-- C1: for every two-interval time input the normalized record is
chronologically ordered regardless of input order: the stored `time0` state is
the earlier date and `time1` the later, both the new `t0`/`t1` record and the
legacy list satisfy `t0.value ≤ t1.value`, and when the two dates are equal
the stem construction records the non-fatal equal-dates warning. -/
theorem two_interval_time_normalized (d0 d1 : Nat) (l0 l1 : Option String)
    (useLegacyFormat : Bool) :
    (deriveTimedata [(d0, l0), (d1, l1)] useLegacyFormat).time0 = some (min d0 d1) ∧
    (deriveTimedata [(d0, l0), (d1, l1)] useLegacyFormat).time1 = some (max d0 d1) ∧
    (∀ t0 t1, (deriveTimedata [(d0, l0), (d1, l1)] useLegacyFormat).result =
        some (.newFormat (some t0) (some t1)) → t0.value ≤ t1.value) ∧
    (∀ a b, (deriveTimedata [(d0, l0), (d1, l1)] useLegacyFormat).result =
        some (.legacyFormat [a, b]) → a.value ≤ b.value) ∧
    (∀ inp : FilestemInput, d0 = d1 →
      inp.time0 = (deriveTimedata [(d0, l0), (d1, l1)] useLegacyFormat).time0 →
      inp.time1 = (deriveTimedata [(d0, l0), (d1, l1)] useLegacyFormat).time1 →
      ∀ stem w, getFilestem inp = .ok (stem, w) → w = true) := by
  have hcore : ∀ (c0 c1 : Nat) (m0 m1 : Option String), c0 ≤ c1 →
      deriveTimedata [(c0, m0), (c1, m1)] useLegacyFormat =
        ⟨some (if useLegacyFormat then
                .legacyFormat [⟨c0, m0.getD ""⟩, ⟨c1, m1.getD ""⟩]
              else .newFormat (some ⟨c0, m0.getD ""⟩) (some ⟨c1, m1.getD ""⟩)),
          some c0, some c1⟩ := by
    intro c0 c1 m0 m1 hle
    simp [deriveTimedata, TimedataValueLabel.fromList, Nat.not_lt.mpr hle]
  have hswap : ∀ (c0 c1 : Nat) (m0 m1 : Option String), c1 < c0 →
      deriveTimedata [(c0, m0), (c1, m1)] useLegacyFormat =
        ⟨some (if useLegacyFormat then
                .legacyFormat [⟨c1, m1.getD ""⟩, ⟨c0, m0.getD ""⟩]
              else .newFormat (some ⟨c1, m1.getD ""⟩) (some ⟨c0, m0.getD ""⟩)),
          some c1, some c0⟩ := by
    intro c0 c1 m0 m1 hlt
    simp [deriveTimedata, TimedataValueLabel.fromList, hlt]
  have hmain : ∃ la lb,
      deriveTimedata [(d0, l0), (d1, l1)] useLegacyFormat =
        ⟨some (if useLegacyFormat then
                .legacyFormat [⟨min d0 d1, la⟩, ⟨max d0 d1, lb⟩]
              else .newFormat (some ⟨min d0 d1, la⟩) (some ⟨max d0 d1, lb⟩)),
          some (min d0 d1), some (max d0 d1)⟩ := by
    rcases Nat.lt_or_ge d1 d0 with hlt | hle
    · refine ⟨l1.getD "", l0.getD "", ?_⟩
      rw [hswap d0 d1 l0 l1 hlt]
      have hmin : min d0 d1 = d1 := by omega
      have hmax : max d0 d1 = d0 := by omega
      rw [hmin, hmax]
    · refine ⟨l0.getD "", l1.getD "", ?_⟩
      rw [hcore d0 d1 l0 l1 hle]
      have hmin : min d0 d1 = d0 := by omega
      have hmax : max d0 d1 = d1 := by omega
      rw [hmin, hmax]
  obtain ⟨la, lb, hmain⟩ := hmain
  rw [hmain]
  refine ⟨rfl, rfl, ?_, ?_, ?_⟩
  · intro t0 t1 heq
    cases useLegacyFormat <;> simp at heq
    obtain ⟨h0, h1⟩ := heq
    rw [← h0, ← h1]
    exact Nat.min_le_left d0 d1 |>.trans (Nat.le_max_left d0 d1)
  · intro a b heq
    cases useLegacyFormat <;> simp at heq
    obtain ⟨h0, h1⟩ := heq
    rw [← h0, ← h1]
    exact Nat.min_le_left d0 d1 |>.trans (Nat.le_max_left d0 d1)
  · intro inp hdd h0 h1 stem w hok
    subst hdd
    simp only [Nat.min_self, Nat.max_self] at h0 h1
    rw [getFilestem] at hok
    split at hok
    · exact absurd hok (by simp)
    split at hok
    · exact absurd hok (by simp)
    rw [h0, h1] at hok
    simp only at hok
    have hw := congrArg Prod.snd (Except.ok.inj hok)
    simp only at hw
    rw [← hw]
    simp

/-- C1 witness: concrete out-of-order two-interval input with equal-date
warning check. -/
theorem two_interval_time_normalized_witness :
    (deriveTimedata [(20210101, some "monitor"), (20200101, some "base")] false).time0 =
      some (min 20210101 20200101) :=
  (two_interval_time_normalized 20210101 20200101 (some "monitor") (some "base") false).1

/-- C10: a time-interval list with more than two entries yields the empty time
record (empty legacy list, or a `t0 = none, t1 = none` record), the `time0` /
`time1` state stays unset, and the assembled metadata carries no `time`
entry. -/
theorem extra_time_intervals_ignored (tdata : List (Nat × Option String))
    (useLegacyFormat : Bool) (h : 2 < tdata.length) :
    (deriveTimedata tdata useLegacyFormat).time0 = none ∧
    (deriveTimedata tdata useLegacyFormat).time1 = none ∧
    (deriveTimedata tdata useLegacyFormat).result =
      some (if useLegacyFormat then .legacyFormat [] else .newFormat none none) ∧
    metaTimeEntry (deriveTimedata tdata useLegacyFormat).result = none := by
  match tdata with
  | [] => simp at h
  | [_] => simp at h
  | [_, _] => simp at h
  | a :: b :: c :: rest =>
      cases useLegacyFormat <;> simp [deriveTimedata, metaTimeEntry]

/-- C10 witness: a concrete three-interval input. -/
theorem extra_time_intervals_ignored_witness :
    (deriveTimedata [(20200101, none), (20210101, none), (20220101, none)] true).time0 =
        none ∧
    metaTimeEntry (deriveTimedata [(20200101, none), (20210101, none),
        (20220101, none)] true).result = none := by
  have h := extra_time_intervals_ignored
    [(20200101, none), (20210101, none), (20220101, none)] true (by decide)
  exact ⟨h.1, h.2.2.2⟩

/-- One replacement pass only keeps characters of the input. -/
theorem mem_replaceDunder {c : Char} : ∀ s : List Char,
    c ∈ replaceDunder s → c ∈ s
  | [] => fun h => by simp [replaceDunder] at h
  | [d] => fun h => by simpa [replaceDunder] using h
  | c1 :: c2 :: rest => fun h => by
      rw [replaceDunder] at h
      by_cases h12 : c1 = '_' ∧ c2 = '_'
      · rw [if_pos h12] at h
        rcases List.mem_cons.mp h with h | h
        · rw [h, h12.1]
          exact List.mem_cons_self _ _
        · exact List.mem_cons_of_mem _ (List.mem_cons_of_mem _
            (mem_replaceDunder rest h))
      · rw [if_neg h12] at h
        rcases List.mem_cons.mp h with h | h
        · rw [h]
          exact List.mem_cons_self _ _
        · exact List.mem_cons_of_mem _ (mem_replaceDunder (c2 :: rest) h)

/-- The collapse loop only keeps characters of the input. -/
theorem mem_collapseDunder {c : Char} : ∀ (n : Nat) (s : List Char),
    c ∈ collapseDunder n s → c ∈ s
  | 0, s => fun h => by simpa [collapseDunder] using h
  | n + 1, s => fun h => by
      rw [collapseDunder] at h
      by_cases hd : hasDunder s = true
      · rw [if_pos hd] at h
        exact mem_replaceDunder s (mem_collapseDunder n (replaceDunder s) h)
      · rwa [if_neg hd] at h

/-- After cleanup no period remains. -/
theorem cleanupStem_no_period (s : List Char) : ¬ '.' ∈ cleanupStem s := by
  rw [cleanupStem]
  intro hmem
  rcases mem_replaceCh 'å' 'a' 'a' hmem with h | h | ⟨hm, _⟩
  · exact absurd h (by decide)
  · exact absurd h (by decide)
  rcases mem_replaceCh 'ø' 'o' 'e' hm with h | h | ⟨hm2, _⟩
  · exact absurd h (by decide)
  · exact absurd h (by decide)
  rcases mem_replaceCh 'æ' 'a' 'e' hm2 with h | h | ⟨hm3, _⟩
  · exact absurd h (by decide)
  · exact absurd h (by decide)
  have hm4 := mem_collapseDunder _ _ hm3
  obtain ⟨d, hds, hd⟩ := List.mem_map.mp hm4
  by_cases hsp : d = ' '
  · rw [if_pos hsp] at hd
    exact absurd hd (by decide)
  · rw [if_neg hsp] at hd
    rw [hd] at hds
    obtain ⟨e, hes, he⟩ := List.mem_map.mp hds
    by_cases hpe : e = '.'
    · rw [if_pos hpe] at he
      exact absurd he (by decide)
    · rw [if_neg hpe] at he
      exact hpe he

/-- After cleanup no space remains. -/
theorem cleanupStem_no_space (s : List Char) : ¬ ' ' ∈ cleanupStem s := by
  rw [cleanupStem]
  intro hmem
  rcases mem_replaceCh 'å' 'a' 'a' hmem with h | h | ⟨hm, _⟩
  · exact absurd h (by decide)
  · exact absurd h (by decide)
  rcases mem_replaceCh 'ø' 'o' 'e' hm with h | h | ⟨hm2, _⟩
  · exact absurd h (by decide)
  · exact absurd h (by decide)
  rcases mem_replaceCh 'æ' 'a' 'e' hm2 with h | h | ⟨hm3, _⟩
  · exact absurd h (by decide)
  · exact absurd h (by decide)
  have hm4 := mem_collapseDunder _ _ hm3
  obtain ⟨d, _, hd⟩ := List.mem_map.mp hm4
  by_cases hsp : d = ' '
  · rw [if_pos hsp] at hd
    exact absurd hd (by decide)
  · rw [if_neg hsp] at hd
    exact hsp hd

/-- After cleanup no double underscore remains. -/
theorem cleanupStem_no_dunder (s : List Char) :
    hasDunder (cleanupStem s) = false := by
  rw [cleanupStem]
  refine hasDunder_replaceCh 'å' 'a' 'a' (by decide) (by decide) _ ?_
  refine hasDunder_replaceCh 'ø' 'o' 'e' (by decide) (by decide) _ ?_
  refine hasDunder_replaceCh 'æ' 'a' 'e' (by decide) (by decide) _ ?_
  exact collapseDunder_no_dunder _ _ (Nat.le_refl _)

/-- After cleanup no `æ` remains. -/
theorem cleanupStem_no_ae (s : List Char) : ¬ 'æ' ∈ cleanupStem s := by
  rw [cleanupStem]
  intro hmem
  rcases mem_replaceCh 'å' 'a' 'a' hmem with h | h | ⟨hm, _⟩
  · exact absurd h (by decide)
  · exact absurd h (by decide)
  rcases mem_replaceCh 'ø' 'o' 'e' hm with h | h | ⟨hm2, _⟩
  · exact absurd h (by decide)
  · exact absurd h (by decide)
  rcases mem_replaceCh 'æ' 'a' 'e' hm2 with h | h | ⟨_, hp⟩
  · exact absurd h (by decide)
  · exact absurd h (by decide)
  · exact hp rfl

/-- After cleanup no `ø` remains. -/
theorem cleanupStem_no_oe (s : List Char) : ¬ 'ø' ∈ cleanupStem s := by
  rw [cleanupStem]
  intro hmem
  rcases mem_replaceCh 'å' 'a' 'a' hmem with h | h | ⟨hm, _⟩
  · exact absurd h (by decide)
  · exact absurd h (by decide)
  rcases mem_replaceCh 'ø' 'o' 'e' hm with h | h | ⟨_, hp⟩
  · exact absurd h (by decide)
  · exact absurd h (by decide)
  · exact hp rfl

/-- After cleanup no `å` remains. -/
theorem cleanupStem_no_aa (s : List Char) : ¬ 'å' ∈ cleanupStem s := by
  rw [cleanupStem]
  intro hmem
  rcases mem_replaceCh 'å' 'a' 'a' hmem with h | h | ⟨_, hp⟩
  · exact absurd h (by decide)
  · exact absurd h (by decide)
  · exact hp rfl

/-- C6: the file stem is the lower-cased name with tag, parent and time parts;
periods and spaces become underscores, repeated underscores collapse so no
`__` remains, and æ/ø/å are transliterated away.  In particular
name `VOLANTIS`, tag `DS`, parent `FIELD` with no time gives
`field--volantis--ds`, and name `Øst Åsgard` gives `oest_aasgard`. -/
theorem filestem_construction :
    getFilestem ⟨"VOLANTIS", "DS", "FIELD", none, none, false⟩ =
      .ok ("field--volantis--ds", false) ∧
    getFilestem ⟨"Øst Åsgard", "", "", none, none, false⟩ =
      .ok ("oest_aasgard", false) ∧
    (∀ (inp : FilestemInput) (stem : String) (w : Bool),
      getFilestem inp = .ok (stem, w) →
      hasDunder stem.toList = false ∧
      ¬ '.' ∈ stem.toList ∧ ¬ ' ' ∈ stem.toList ∧
      ¬ 'æ' ∈ stem.toList ∧ ¬ 'ø' ∈ stem.toList ∧ ¬ 'å' ∈ stem.toList) := by
  refine ⟨rfl, rfl, ?_⟩
  intro inp stem w hok
  rw [getFilestem] at hok
  split at hok
  · exact absurd hok (by simp)
  split at hok
  · exact absurd hok (by simp)
  simp only at hok
  have hstem := congrArg Prod.fst (Except.ok.inj hok)
  simp only at hstem
  rw [← hstem]
  have htl : ∀ l : List Char, (String.mk l).toList = l := fun _ => rfl
  rw [htl]
  exact ⟨cleanupStem_no_dunder _, cleanupStem_no_period _, cleanupStem_no_space _,
    cleanupStem_no_ae _, cleanupStem_no_oe _, cleanupStem_no_aa _⟩

/-- C6 witness: the generic cleanup guarantees at the first concrete
example. -/
theorem filestem_construction_witness :
    hasDunder "field--volantis--ds".toList = false ∧
    ¬ '.' ∈ "field--volantis--ds".toList ∧
    ¬ ' ' ∈ "field--volantis--ds".toList ∧
    ¬ 'æ' ∈ "field--volantis--ds".toList ∧
    ¬ 'ø' ∈ "field--volantis--ds".toList ∧
    ¬ 'å' ∈ "field--volantis--ds".toList :=
  filestem_construction.2.2 ⟨"VOLANTIS", "DS", "FIELD", none, none, false⟩
    "field--volantis--ds" false filestem_construction.1

/-- C7: stem construction fails exactly when the resolved name is empty or
`time1` is present while `time0` is missing; otherwise it succeeds. -/
theorem filestem_error_condition (inp : FilestemInput) :
    (∃ e, getFilestem inp = .error e) ↔
      (inp.name = "" ∨ (inp.time0 = none ∧ inp.time1.isSome = true)) := by
  rw [getFilestem]
  by_cases h1 : inp.name = ""
  · simp [h1]
  · rw [if_neg h1]
    by_cases h2 : inp.time0 = none ∧ inp.time1.isSome = true
    · have hb : (decide (inp.time0 = none) && inp.time1.isSome) = true := by
        simp [h2.1, h2.2]
      rw [if_pos hb]
      simp [h1, h2]
    · have hb : ¬ ((decide (inp.time0 = none) && inp.time1.isSome) = true) := by
        simpa [Bool.and_eq_true, decide_eq_true_eq] using h2
      rw [if_neg hb]
      simp [h1, h2]

/-- C7 witness: an input with `time1` but no `time0` fails. -/
theorem filestem_error_condition_witness :
    ∃ e, getFilestem ⟨"surf", "", "", none, some 20200101, false⟩ = .error e :=
  (filestem_error_condition ⟨"surf", "", "", none, some 20200101, false⟩).mpr
    (Or.inr ⟨rfl, rfl⟩)

/-- The pandas column minimum is a lower bound of the column. -/
theorem colMin_le (v : Int) (vs : List Int) : ∀ w ∈ v :: vs, colMin v vs ≤ w := by
  induction vs generalizing v with
  | nil =>
      intro w hw
      rw [List.mem_singleton] at hw
      simp [colMin, hw]
  | cons a t ih =>
      intro w hw
      have hstep : colMin v (a :: t) = colMin (min v a) t := rfl
      rw [hstep]
      rcases List.mem_cons.mp hw with h | h
      · exact le_trans (ih (min v a) _ (List.mem_cons_self _ _)) (by rw [← h]; omega)
      rcases List.mem_cons.mp h with h | h
      · exact le_trans (ih (min v a) _ (List.mem_cons_self _ _)) (by rw [← h]; omega)
      · exact ih (min v a) w (List.mem_cons_of_mem _ h)

/-- The pandas column minimum is attained in the column. -/
theorem colMin_mem (v : Int) (vs : List Int) : colMin v vs ∈ v :: vs := by
  induction vs generalizing v with
  | nil => simp [colMin]
  | cons a t ih =>
      have hstep : colMin v (a :: t) = colMin (min v a) t := rfl
      rw [hstep]
      rcases List.mem_cons.mp (ih (min v a)) with h | h
      · rcases le_total v a with hva | hav
        · rw [h, min_eq_left hva]
          exact List.mem_cons_self _ _
        · rw [h, min_eq_right hav]
          exact List.mem_cons_of_mem _ (List.mem_cons_self _ _)
      · exact List.mem_cons_of_mem _ (List.mem_cons_of_mem _ h)

/-- The pandas column maximum is an upper bound of the column. -/
theorem colMax_ge (v : Int) (vs : List Int) : ∀ w ∈ v :: vs, w ≤ colMax v vs := by
  induction vs generalizing v with
  | nil =>
      intro w hw
      rw [List.mem_singleton] at hw
      simp [colMax, hw]
  | cons a t ih =>
      intro w hw
      have hstep : colMax v (a :: t) = colMax (max v a) t := rfl
      rw [hstep]
      rcases List.mem_cons.mp hw with h | h
      · exact le_trans (by rw [← h]; omega) (ih (max v a) _ (List.mem_cons_self _ _))
      rcases List.mem_cons.mp h with h | h
      · exact le_trans (by rw [← h]; omega) (ih (max v a) _ (List.mem_cons_self _ _))
      · exact ih (max v a) w (List.mem_cons_of_mem _ h)

/-- The pandas column maximum is attained in the column. -/
theorem colMax_mem (v : Int) (vs : List Int) : colMax v vs ∈ v :: vs := by
  induction vs generalizing v with
  | nil => simp [colMax]
  | cons a t ih =>
      have hstep : colMax v (a :: t) = colMax (max v a) t := rfl
      rw [hstep]
      rcases List.mem_cons.mp (ih (max v a)) with h | h
      · rcases le_total v a with hva | hav
        · rw [h, max_eq_right hva]
          exact List.mem_cons_of_mem _ (List.mem_cons_self _ _)
        · rw [h, max_eq_left hav]
          exact List.mem_cons_self _ _
      · exact List.mem_cons_of_mem _ (List.mem_cons_of_mem _ h)

/-- C3: the Points bounding box takes `xmin`/`xmax` and `zmin`/`zmax` from the
minimum/maximum of the x and z columns, while the y axis is inverted: `ymax`
is the y column's minimum and `ymin` its maximum. -/
theorem points_bbox_y_inverted (p : PointRow) (ps : List PointRow) :
    ((pointsGetBbox p ps).xmin ∈ (p :: ps).map PointRow.xval ∧
      ∀ v ∈ (p :: ps).map PointRow.xval, (pointsGetBbox p ps).xmin ≤ v) ∧
    ((pointsGetBbox p ps).xmax ∈ (p :: ps).map PointRow.xval ∧
      ∀ v ∈ (p :: ps).map PointRow.xval, v ≤ (pointsGetBbox p ps).xmax) ∧
    ((pointsGetBbox p ps).ymax ∈ (p :: ps).map PointRow.yval ∧
      ∀ v ∈ (p :: ps).map PointRow.yval, (pointsGetBbox p ps).ymax ≤ v) ∧
    ((pointsGetBbox p ps).ymin ∈ (p :: ps).map PointRow.yval ∧
      ∀ v ∈ (p :: ps).map PointRow.yval, v ≤ (pointsGetBbox p ps).ymin) ∧
    ((pointsGetBbox p ps).zmin ∈ (p :: ps).map PointRow.zval ∧
      ∀ v ∈ (p :: ps).map PointRow.zval, (pointsGetBbox p ps).zmin ≤ v) ∧
    ((pointsGetBbox p ps).zmax ∈ (p :: ps).map PointRow.zval ∧
      ∀ v ∈ (p :: ps).map PointRow.zval, v ≤ (pointsGetBbox p ps).zmax) := by
  simp only [pointsGetBbox, List.map_cons]
  exact ⟨⟨colMin_mem _ _, colMin_le _ _⟩, ⟨colMax_mem _ _, colMax_ge _ _⟩,
    ⟨colMin_mem _ _, colMin_le _ _⟩, ⟨colMax_mem _ _, colMax_ge _ _⟩,
    ⟨colMin_mem _ _, colMin_le _ _⟩, ⟨colMax_mem _ _, colMax_ge _ _⟩⟩

/-- C3 witness: a concrete two-point dataframe pinning the inverted y
assignment (`ymax = 5` is the y minimum, `ymin = 7` the y maximum). -/
theorem points_bbox_y_inverted_witness :
    pointsGetBbox ⟨1, 5, 9⟩ [⟨2, 7, 8⟩] =
      { xmin := 1, xmax := 2, ymin := 7, ymax := 5, zmin := 8, zmax := 9 } := by
  decide

/-- C4: a surface with no finite value gets a 2D bbox (x/y extent only, no z
keys); a surface with at least one finite value gets a 3D bbox whose z range
is the minimum/maximum of the finite values. -/
theorem surface_bbox_z_presence (s : SurfaceObj) :
    ((∀ v ∈ s.values, v = none) →
      surfaceGetBbox s = .box2d s.xmin s.xmax s.ymin s.ymax) ∧
    (∀ z, some z ∈ s.values →
      ∃ zmin zmax,
        surfaceGetBbox s = .box3d s.xmin s.xmax s.ymin s.ymax zmin zmax ∧
        some zmin ∈ s.values ∧ some zmax ∈ s.values ∧
        (∀ w, some w ∈ s.values → zmin ≤ w ∧ w ≤ zmax)) := by
  constructor
  · intro hall
    have hnil : s.values.filterMap id = [] := by
      rw [List.filterMap_eq_nil_iff]
      intro a ha
      rw [hall a ha]
      rfl
    rw [surfaceGetBbox, hnil]
  · intro z hz
    have hzf : z ∈ s.values.filterMap id :=
      List.mem_filterMap.mpr ⟨some z, hz, rfl⟩
    have hmemback : ∀ w : Int, w ∈ s.values.filterMap id → some w ∈ s.values := by
      intro w hw
      obtain ⟨a, ha, hwa⟩ := List.mem_filterMap.mp hw
      rw [show a = some w from hwa] at ha
      exact ha
    have hmemfwd : ∀ w : Int, some w ∈ s.values → w ∈ s.values.filterMap id := by
      intro w hw
      exact List.mem_filterMap.mpr ⟨some w, hw, rfl⟩
    cases hfin : s.values.filterMap id with
    | nil => rw [hfin] at hzf; simp at hzf
    | cons v vs =>
        refine ⟨colMin v vs, colMax v vs, ?_, ?_, ?_, ?_⟩
        · rw [surfaceGetBbox, hfin]
        · exact hmemback _ (hfin ▸ colMin_mem v vs)
        · exact hmemback _ (hfin ▸ colMax_mem v vs)
        · intro w hw
          have hwf : w ∈ v :: vs := hfin ▸ hmemfwd w hw
          exact ⟨colMin_le v vs w hwf, colMax_ge v vs w hwf⟩

/-- C4 witness: a concrete surface with one finite value among undefined
cells, and the all-undefined case. -/
theorem surface_bbox_z_presence_witness :
    surfaceGetBbox ⟨0, 10, 0, 20, [none, none]⟩ = .box2d 0 10 0 20 ∧
    ∃ zmin zmax,
      surfaceGetBbox ⟨0, 10, 0, 20, [none, some 7, none, some 3]⟩ =
        .box3d 0 10 0 20 zmin zmax ∧
      some zmin ∈ [none, some 7, none, some 3] ∧
      some zmax ∈ [none, some 7, none, some 3] ∧
      (∀ w, some w ∈ ([none, some 7, none, some 3] : List (Option Int)) →
        zmin ≤ w ∧ w ≤ zmax) := by
  constructor
  · exact (surface_bbox_z_presence ⟨0, 10, 0, 20, [none, none]⟩).1 (by decide)
  · exact (surface_bbox_z_presence ⟨0, 10, 0, 20, [none, some 7, none, some 3]⟩).2
      7 (by simp)

/-- C8: the candidate name is looked up by exact match in the stratigraphy
table; if found, all fields come from the table entry and the candidate is
appended to the alias list unless the official name is the literal string
"name"; if not found, the fields default to raw candidate / empty list /
false / none. -/
theorem stratigraphy_resolution (strat : Option (List (String × StratEntry)))
    (candidate : String) :
    (lookupStrat strat candidate = none →
      deriveNameStratigraphy strat candidate =
        { name := candidate, aliasList := [], stratigraphic := false,
          stratigraphicAlias := some [], offset := none, top := none,
          base := none }) ∧
    (∀ e, lookupStrat strat candidate = some e →
      deriveNameStratigraphy strat candidate =
        { name := e.name.getD candidate,
          aliasList :=
            if e.name.getD candidate = "name" then e.aliasList.getD []
            else e.aliasList.getD [] ++ [candidate],
          stratigraphic := e.stratigraphic.getD false,
          stratigraphicAlias := e.stratigraphicAlias,
          offset := e.offset, top := e.top, base := e.base }) := by
  constructor
  · intro h
    rw [deriveNameStratigraphy, h]
  · intro e he
    rw [deriveNameStratigraphy, he]
    by_cases hn : e.name.getD candidate = "name"
    · simp [hn]
    · simp [hn]

/-- C8 witness: concrete table hit with alias appending, and a miss. -/
theorem stratigraphy_resolution_witness :
    deriveNameStratigraphy
        (some [("TopValysar",
          { name := some "Valysar Top Fm.", aliasList := some ["TV"],
            stratigraphic := some true, stratigraphicAlias := none,
            offset := some 0, top := none, base := none })]) "TopValysar" =
      { name := "Valysar Top Fm.", aliasList := ["TV", "TopValysar"],
        stratigraphic := true, stratigraphicAlias := none, offset := some 0,
        top := none, base := none } ∧
    deriveNameStratigraphy (some []) "Unknown" =
      { name := "Unknown", aliasList := [], stratigraphic := false,
        stratigraphicAlias := some [], offset := none, top := none,
        base := none } := by
  constructor
  · have h := (stratigraphy_resolution
      (some [("TopValysar",
        ⟨some "Valysar Top Fm.", some ["TV"], some true, none, some 0, none, none⟩)])
      "TopValysar").2
      ⟨some "Valysar Top Fm.", some ["TV"], some true, none, some 0, none, none⟩
      (by decide)
    rw [h]
    simp
  · exact (stratigraphy_resolution (some []) "Unknown").1 rfl

/-- C2: reusing an existing metadata record copies the `data` block verbatim
(name, stratigraphic, alias, top, base untouched) and recomputes only the
derived attributes: `efolder` and `extension` from the record's file path,
`fmt` from the record's `data.format`, `time0` / `time1` from the record's
time fields, and the class name from the record's `class` key. -/
theorem existing_metadata_reused (parseTimedata : DataBlock → Option Nat × Option Nat)
    (me : ExistingMeta) (subfolder : Bool) :
    (deriveFromExisting parseTimedata me subfolder).metadata = me.data ∧
    (deriveFromExisting parseTimedata me subfolder).metadata.name = me.data.name ∧
    (deriveFromExisting parseTimedata me subfolder).metadata.stratigraphic =
      me.data.stratigraphic ∧
    (deriveFromExisting parseTimedata me subfolder).metadata.aliasList =
      me.data.aliasList ∧
    (deriveFromExisting parseTimedata me subfolder).metadata.top = me.data.top ∧
    (deriveFromExisting parseTimedata me subfolder).metadata.base = me.data.base ∧
    (deriveFromExisting parseTimedata me subfolder).name = me.data.name ∧
    (deriveFromExisting parseTimedata me subfolder).efolder =
      (if subfolder then parentParentName me.relativePath
       else parentName me.relativePath) ∧
    (deriveFromExisting parseTimedata me subfolder).extension =
      fileSuffix ((me.relativePath.getLast?).getD "") ∧
    (deriveFromExisting parseTimedata me subfolder).fmt = me.data.format ∧
    (deriveFromExisting parseTimedata me subfolder).classname = me.className ∧
    ((deriveFromExisting parseTimedata me subfolder).time0,
      (deriveFromExisting parseTimedata me subfolder).time1) = parseTimedata me.data :=
  ⟨rfl, rfl, rfl, rfl, rfl, rfl, rfl, rfl, rfl, rfl, rfl, rfl⟩

/-- C2 witness: a concrete existing record round-trips its data block. -/
theorem existing_metadata_reused_witness :
    (deriveFromExisting (fun _ => (none, none))
        ⟨{ name := "VOLANTIS GP. Top", stratigraphic := true,
           aliasList := ["TopVolantis"], top := none, base := none,
           format := "irap_binary", rest := [("unit", "m")] },
         "surface", ["share", "results", "maps", "volantis--ds.gri"]⟩
        false).metadata =
      { name := "VOLANTIS GP. Top", stratigraphic := true,
        aliasList := ["TopVolantis"], top := none, base := none,
        format := "irap_binary", rest := [("unit", "m")] } :=
  (existing_metadata_reused (fun _ => (none, none)) _ false).1

/-- Characterization of `_get_path` when the forced folder is an absolute
path: preprocessed context fails first, then a missing permitting flag fails,
else the destination is the forced folder (plus subfolder) with a warning. -/
theorem getPath_absolute (s : PathSettings) (rootpath : PPath)
    (itername realname efolder : String)
    (hffa : (s.forcefolder ≠ "" && startsWithSlash s.forcefolder) = true) :
    getPath s rootpath itername realname efolder =
      if s.fmuContext = .preprocessed then
        .error "Cannot use absolute path to 'forcefolder' with preprocessed data"
      else if s.allowForcefolderAbsolute = false then
        .error "The forcefolder includes an absolute path"
      else
        .ok ⟨if s.subfolder = "" then pathOfAbsoluteString s.forcefolder
             else (pathOfAbsoluteString s.forcefolder).child s.subfolder,
          true, ["Using absolute paths in forcefolder is not recommended!"]⟩ := by
  rw [getPath]
  simp only [hffa]
  by_cases hpre : s.fmuContext = .preprocessed
  · simp [hpre]
  · by_cases hallow : s.allowForcefolderAbsolute = false
    · simp [hpre, hallow]
    · simp [hpre, hallow]

/-- The relative-path fallback of `_derive_filedata_generic`: with
`forcefolder_is_absolute` set, when the target is not under the root path and
the derivation returns, the relative path is the absolute path; and it always
returns on ASCII-clean paths. -/
theorem filedataGeneric_fallback (rootpath dest : PPath) (fname : String) :
    (∀ relpath abspath,
      relativeTo rootpath (dest.child fname) = none →
      deriveFiledataGeneric rootpath dest true fname = .ok (relpath, abspath) →
      relpath = abspath) ∧
    ((dest.child fname).segs.all
        (fun seg => seg.toList.all (fun c => c.toNat < 128)) = true →
      ∃ pr, deriveFiledataGeneric rootpath dest true fname = .ok pr) := by
  constructor
  · intro relpath abspath hout hok
    rw [deriveFiledataGeneric] at hok
    split at hok
    · exact absurd hok (by simp)
    rw [hout] at hok
    simp at hok
    obtain ⟨h1, h2⟩ := hok
    subst h1
    subst h2
    rfl
  · intro hascii
    simp only [deriveFiledataGeneric]
    rw [if_neg (fun hc => hc hascii), if_pos trivial]
    cases hrel : relativeTo rootpath (dest.child fname) with
    | some r => exact ⟨_, rfl⟩
    | none => exact ⟨_, rfl⟩

/-- C5: an absolute forced folder without the permitting
`allow_forcefolder_absolute` flag makes path derivation fail; with the flag
(outside the preprocessed context, which C9 covers) a non-fatal warning is
recorded and, whenever the destination lies outside the root path, the
derived relative path equals the absolute path with no error raised (the
derivation succeeds for every ASCII-clean file name). -/
theorem forcefolder_absolute_handling (s : PathSettings) (rootpath : PPath)
    (itername realname efolder : String)
    (habs : startsWithSlash s.forcefolder = true) :
    (s.allowForcefolderAbsolute = false →
      ∃ e, getPath s rootpath itername realname efolder = .error e) ∧
    (s.allowForcefolderAbsolute = true → ¬ s.fmuContext = .preprocessed →
      ∃ r, getPath s rootpath itername realname efolder = .ok r ∧
        r.forcefolderIsAbsolute = true ∧
        "Using absolute paths in forcefolder is not recommended!" ∈ r.warnings ∧
        (∀ fname relpath abspath,
          relativeTo rootpath (r.dest.child fname) = none →
          deriveFiledataGeneric rootpath r.dest true fname = .ok (relpath, abspath) →
          relpath = abspath) ∧
        (∀ fname,
          (r.dest.child fname).segs.all
            (fun seg => seg.toList.all (fun c => c.toNat < 128)) = true →
          ∃ pr, deriveFiledataGeneric rootpath r.dest true fname = .ok pr)) := by
  have hne : ¬ s.forcefolder = "" := by
    intro h
    rw [h] at habs
    exact absurd habs (by decide)
  have hffa : (s.forcefolder ≠ "" && startsWithSlash s.forcefolder) = true := by
    simp [hne, habs]
  rw [getPath_absolute s rootpath itername realname efolder hffa]
  constructor
  · intro hallow
    by_cases hpre : s.fmuContext = .preprocessed
    · rw [if_pos hpre]
      exact ⟨_, rfl⟩
    · rw [if_neg hpre, if_pos hallow]
      exact ⟨_, rfl⟩
  · intro hallow hpre
    rw [if_neg hpre, if_neg (by rw [hallow]; simp)]
    refine ⟨_, rfl, rfl, by simp, ?_, ?_⟩
    · intro fname relpath abspath hout hok
      exact (filedataGeneric_fallback rootpath _ fname).1 relpath abspath hout hok
    · intro fname hascii
      exact (filedataGeneric_fallback rootpath _ fname).2 hascii

/-- C5 witness: concrete absolute forced folder outside the root path. -/
theorem forcefolder_absolute_handling_witness :
    (∃ e, getPath ⟨.caseAggregated, "/abs/dir", false, false, ""⟩
        ⟨true, ["proj", "case"]⟩ "" "" "maps" = .error e) ∧
    (∃ r, getPath ⟨.caseAggregated, "/abs/dir", true, false, ""⟩
        ⟨true, ["proj", "case"]⟩ "" "" "maps" = .ok r ∧
      r.forcefolderIsAbsolute = true ∧
      "Using absolute paths in forcefolder is not recommended!" ∈ r.warnings ∧
      (∀ fname relpath abspath,
        relativeTo ⟨true, ["proj", "case"]⟩ (r.dest.child fname) = none →
        deriveFiledataGeneric ⟨true, ["proj", "case"]⟩ r.dest true fname =
          .ok (relpath, abspath) →
        relpath = abspath) ∧
      (∀ fname,
        (r.dest.child fname).segs.all
          (fun seg => seg.toList.all (fun c => c.toNat < 128)) = true →
        ∃ pr, deriveFiledataGeneric ⟨true, ["proj", "case"]⟩ r.dest true fname =
          .ok pr)) :=
  ⟨(forcefolder_absolute_handling ⟨.caseAggregated, "/abs/dir", false, false, ""⟩
      ⟨true, ["proj", "case"]⟩ "" "" "maps" (by decide)).1 rfl,
   (forcefolder_absolute_handling ⟨.caseAggregated, "/abs/dir", true, false, ""⟩
      ⟨true, ["proj", "case"]⟩ "" "" "maps" (by decide)).2 rfl (by decide)⟩

/-- C9: under the preprocessed context the derived folder appends
`share/preprocessed` after the root (and no `observations` or `results`
segment) and an absolute forced folder is rejected; under the other
non-realization contexts the folder appends `share/observations` when the
observation flag is set, else `share/results`. -/
theorem path_context_layout (s : PathSettings) (rootpath : PPath)
    (itername realname efolder : String) :
    (s.fmuContext = .preprocessed → startsWithSlash s.forcefolder = true →
      ∃ e, getPath s rootpath itername realname efolder = .error e) ∧
    (s.fmuContext = .preprocessed → startsWithSlash s.forcefolder = false →
      getPath s rootpath itername realname efolder =
        .ok ⟨⟨rootpath.absolute,
            rootpath.segs ++ ["share", "preprocessed", efolder] ++
              (if s.subfolder = "" then [] else [s.subfolder])⟩, false, []⟩) ∧
    (s.fmuContext = .caseAggregated → startsWithSlash s.forcefolder = false →
      getPath s rootpath itername realname efolder =
        .ok ⟨⟨rootpath.absolute,
            rootpath.segs ++
              ["share", (if s.isObservation then "observations" else "results"),
                efolder] ++
              (if s.subfolder = "" then [] else [s.subfolder])⟩, false, []⟩) := by
  refine ⟨?_, ?_, ?_⟩
  · intro hpre habs
    have hne : ¬ s.forcefolder = "" := by
      intro h
      rw [h] at habs
      exact absurd habs (by decide)
    have hffa : (s.forcefolder ≠ "" && startsWithSlash s.forcefolder) = true := by
      simp [hne, habs]
    rw [getPath_absolute s rootpath itername realname efolder hffa, if_pos hpre]
    exact ⟨_, rfl⟩
  · intro hpre hns
    have hffa : (s.forcefolder ≠ "" && startsWithSlash s.forcefolder) = false := by
      simp [hns]
    by_cases hsub : s.subfolder = "" <;>
      simp [getPath, hffa, hns, hpre, hsub, PPath.child]
  · intro hcase hns
    have hffa : (s.forcefolder ≠ "" && startsWithSlash s.forcefolder) = false := by
      simp [hns]
    by_cases hsub : s.subfolder = "" <;>
      by_cases hobs : s.isObservation = true <;>
        simp [getPath, hffa, hns, hcase, hsub, hobs, PPath.child]

/-- C9 witness: concrete preprocessed and aggregated layouts, and the
preprocessed rejection of an absolute forced folder. -/
theorem path_context_layout_witness :
    (∃ e, getPath ⟨.preprocessed, "/abs/dir", true, false, ""⟩ ⟨true, ["proj"]⟩
        "" "" "maps" = .error e) ∧
    getPath ⟨.preprocessed, "", false, false, ""⟩ ⟨true, ["proj"]⟩ "" "" "maps" =
      .ok ⟨⟨true, ["proj", "share", "preprocessed", "maps"]⟩, false, []⟩ ∧
    getPath ⟨.caseAggregated, "", false, true, ""⟩ ⟨true, ["proj"]⟩ "" "" "maps" =
      .ok ⟨⟨true, ["proj", "share", "observations", "maps"]⟩, false, []⟩ := by
  refine ⟨?_, ?_, ?_⟩
  · exact (path_context_layout ⟨.preprocessed, "/abs/dir", true, false, ""⟩
      ⟨true, ["proj"]⟩ "" "" "maps").1 rfl (by decide)
  · have h := (path_context_layout ⟨.preprocessed, "", false, false, ""⟩
      ⟨true, ["proj"]⟩ "" "" "maps").2.1 rfl (by decide)
    simpa using h
  · have h := (path_context_layout ⟨.caseAggregated, "", false, true, ""⟩
      ⟨true, ["proj"]⟩ "" "" "maps").2.2 rfl (by decide)
    simpa using h

end FmuDataio
